import Mathlib

/-!
Verification of the embedded-metadata locator and carver of
BlueProtocolStarResonanceDataAnalysis.

The definitions below are a shallow embedding of
`Tools/DataTools/Scripts/bspr_metadata_extractor.py` and
`Tools/DataTools/Scripts/bspr_runtime_dump.py`.  Byte buffers are `List Nat`
(each element a byte value); Python slices `buf[i:j]` become
`(buf.drop i).take (j - i)`, which clips at the end of the buffer exactly as
Python slicing does.  Fallible code returns `Option`/`Except`.
-/

/-- A byte read `mv[i]`; scanning code only indexes in-bounds positions,
out-of-range reads default to 0. -/
def byteAt (buf : List Nat) (i : Nat) : Nat := buf.getD i 0

/-- The Python slice `buf[i : i+n]` (clipped at the end of the buffer). -/
def bslice (buf : List Nat) (i n : Nat) : List Nat := (buf.drop i).take n

/-- `MAGIC = b"\xAF\x1B\xB1\xFA"`, the IL2CPP metadata magic. -/
def MAGIC : List Nat := [0xAF, 0x1B, 0xB1, 0xFA]

/-- `MAGIC_REV = MAGIC[::-1]`. -/
def MAGIC_REV : List Nat := MAGIC.reverse

/-- `int.from_bytes(bs, "little", signed=False)`. -/
def le32 (bs : List Nat) : Nat := bs.foldr (fun b acc => b + 256 * acc) 0

/-- The 4 little-endian bytes of a 32-bit value (used to build test headers). -/
def le4 (v : Nat) : List Nat :=
  [v % 256, v / 256 % 256, v / 65536 % 256, v / 16777216 % 256]

/-- `class Section` of bspr_metadata_extractor.py: a PE section's name and its
raw file-offset interval `[start, end)` (the source's `end` field is `stop`
here, `end` being a Lean keyword). -/
structure Section where
  name : String
  start : Nat
  stop : Nat
deriving DecidableEq, Repr

/-- `section_for_offset`: first section whose `[start, stop)` interval contains
the file offset. -/
def section_for_offset (sections : List Section) (file_off : Nat) : Option Section :=
  sections.find? (fun s => decide (s.start ≤ file_off ∧ file_off < s.stop))

/-- `decode_1xor`: XOR every byte with the single key (`k &= 0xFF`). -/
def decode_1xor (b : List Nat) (k : Nat) : List Nat :=
  b.map (fun x => x ^^^ (k % 256))

/-- Helper for `decode_4xor`: XOR byte `i` with `ks[i & 3]`. -/
def xorCycle (ks : List Nat) : Nat → List Nat → List Nat
  | _, [] => []
  | i, x :: xs => (x ^^^ ks.getD (i % 4) 0) :: xorCycle ks (i + 1) xs

/-- `decode_4xor`: XOR byte `i` with key `i mod 4` (keys masked to one byte). -/
def decode_4xor (b : List Nat) (k0 k1 k2 k3 : Nat) : List Nat :=
  xorCycle [k0 % 256, k1 % 256, k2 % 256, k3 % 256] 0 b

/-- `parse_header_version`: `None` unless the 8-byte header starts with MAGIC;
otherwise the little-endian version at bytes 4..8. -/
def parse_header_version (buf8 : List Nat) : Option Nat :=
  if buf8.length < 8 then none
  else if buf8.take 4 ≠ MAGIC then none
  else some (le32 (bslice buf8 4 4))

/-- `plaus_version`: `10 <= v <= 50`. -/
def plaus_version (v : Nat) : Bool := decide (10 ≤ v ∧ v ≤ 50)

/-- `class Cand`: a candidate hit. -/
structure Cand where
  off : Nat
  mode : String
  key : List Nat
  ver : Option Nat
  sec : Section
deriving DecidableEq, Repr

/-- The `header8` computation of `add_candidate`: read 8 raw bytes at the
offset and decode them per mode (for `rev` only the magic is fixed; the
version bytes are taken as-is). -/
def headerForMode (buf : List Nat) (i : Nat) (mode : String) (key : List Nat) : List Nat :=
  if mode = "xor1" then decode_1xor (bslice buf i 8) (key.getD 0 0)
  else if mode = "xor4" then
    decode_4xor (bslice buf i 8) (key.getD 0 0) (key.getD 1 0) (key.getD 2 0) (key.getD 3 0)
  else if mode = "rev" then MAGIC ++ (bslice buf i 8).drop 4
  else bslice buf i 8

/-- The body of `add_candidate` in `find_hits`: resolve the containing section
(discard the hit if none), decode the 8-byte header per mode, and when the
decoded magic matches, classify the candidate as plausible (`true`) or
suspect (`false`). -/
def mkCandidate (buf : List Nat) (sections : List Section) (noVC : Bool)
    (i : Nat) (mode : String) (key : List Nat) : Option (Bool × Cand) :=
  match section_for_offset sections i with
  | none => none
  | some sec =>
      if (headerForMode buf i mode key).take 4 = MAGIC then
        some (noVC || ((parse_header_version (headerForMode buf i mode key)).isSome &&
                plaus_version ((parse_header_version (headerForMode buf i mode key)).getD 0)),
              ⟨i, mode, key, parse_header_version (headerForMode buf i mode key), sec⟩)
      else none

/-- Pass A (plain): every offset of a verbatim MAGIC match inside the range. -/
def plainHits (buf : List Nat) (r : Nat × Nat) : List Nat :=
  (List.range' r.1 (r.2 - r.1)).filter
    (fun i => decide (i + 4 ≤ r.2) && decide (bslice buf i 4 = MAGIC))

/-- Pass B (reversed): every offset of a verbatim reversed-MAGIC match. -/
def revHits (buf : List Nat) (r : Nat × Nat) : List Nat :=
  (List.range' r.1 (r.2 - r.1)).filter
    (fun i => decide (i + 4 ≤ r.2) && decide (bslice buf i 4 = MAGIC_REV))

/-- The xor1 candidate key derived at an offset: `mv[i] ^ MAGIC[0]`. -/
def xor1Key (buf : List Nat) (i : Nat) : Nat := byteAt buf i ^^^ MAGIC.getD 0 0

/-- Pass C (1-byte XOR): offsets `i <= end - 8` where the derived key is
nonzero and XOR-ing the next 3 bytes reproduces `MAGIC[1..3]`. -/
def xor1Hits (buf : List Nat) (r : Nat × Nat) : List (Nat × Nat) :=
  ((List.range' r.1 (r.2 - r.1)).filter (fun i =>
      decide (i + 8 ≤ r.2) && decide (xor1Key buf i ≠ 0) &&
      decide (byteAt buf (i + 1) ^^^ xor1Key buf i = MAGIC.getD 1 0) &&
      decide (byteAt buf (i + 2) ^^^ xor1Key buf i = MAGIC.getD 2 0) &&
      decide (byteAt buf (i + 3) ^^^ xor1Key buf i = MAGIC.getD 3 0))).map
    (fun i => (i, xor1Key buf i))

/-- The 4 xor4 key bytes derived at an offset: `mv[i+j] ^ MAGIC[j]`. -/
def xor4Keys (buf : List Nat) (i : Nat) : List Nat :=
  [byteAt buf i ^^^ MAGIC.getD 0 0, byteAt buf (i + 1) ^^^ MAGIC.getD 1 0,
   byteAt buf (i + 2) ^^^ MAGIC.getD 2 0, byteAt buf (i + 3) ^^^ MAGIC.getD 3 0]

/-- The decoded 8-byte header of the xor4 precheck at an offset. -/
def xor4Header (buf : List Nat) (i : Nat) : List Nat :=
  decode_4xor (bslice buf i 8) ((xor4Keys buf i).getD 0 0) ((xor4Keys buf i).getD 1 0)
    ((xor4Keys buf i).getD 2 0) ((xor4Keys buf i).getD 3 0)

/-- Pass D (4-byte repeating XOR): offsets `i <= end - 8` passing the precheck
(decoded magic matches and, unless version checking is disabled, the decoded
version is plausible). -/
def xor4Hits (buf : List Nat) (r : Nat × Nat) (noVC : Bool) : List (Nat × List Nat) :=
  ((List.range' r.1 (r.2 - r.1)).filter (fun i =>
      decide (i + 8 ≤ r.2) && decide ((xor4Header buf i).take 4 = MAGIC) &&
      (noVC || ((parse_header_version (xor4Header buf i)).isSome &&
                plaus_version ((parse_header_version (xor4Header buf i)).getD 0))))).map
    (fun i => (i, xor4Keys buf i))

/-- All hits of the four scanning passes, in scan order
plain → reversed → xor1 → xor4, tagged with their mode and key. -/
def scanHits (buf : List Nat) (ranges : List (Nat × Nat)) (noVC : Bool) :
    List (Nat × String × List Nat) :=
  (ranges.map (fun r => (plainHits buf r).map (fun i => (i, "plain", ([] : List Nat))))).flatten ++
  (ranges.map (fun r => (revHits buf r).map (fun i => (i, "rev", ([] : List Nat))))).flatten ++
  (ranges.map (fun r => (xor1Hits buf r).map (fun p => (p.1, "xor1", [p.2])))).flatten ++
  (ranges.map (fun r => (xor4Hits buf r noVC).map (fun p => (p.1, "xor4", p.2)))).flatten

/-- One `add_candidate` step on the (plausible, suspects) accumulator. -/
def addCandidate (buf : List Nat) (sections : List Section) (noVC : Bool)
    (st : List Cand × List Cand) (h : Nat × String × List Nat) : List Cand × List Cand :=
  match mkCandidate buf sections noVC h.1 h.2.1 h.2.2 with
  | none => st
  | some (true, c) => (st.1 ++ [c], st.2)
  | some (false, c) => (st.1, st.2 ++ [c])

/-- The scanning part of `find_hits`: fold `add_candidate` over all hits in
scan order, building the (plausible, suspects) pair. -/
def scanClassify (buf : List Nat) (sections : List Section)
    (ranges : List (Nat × Nat)) (noVC : Bool) : List Cand × List Cand :=
  (scanHits buf ranges noVC).foldl (addCandidate buf sections noVC) ([], [])

/-- The deduplication key `(c.off, c.sec.start, c.sec.end)`. -/
def candKey (c : Cand) : Nat × Nat × Nat := (c.off, c.sec.start, c.sec.stop)

/-- `uniq` with an explicit seen-set: keeps the first candidate per key,
returning the kept candidates and the grown seen-set. -/
def uniqFrom : List (Nat × Nat × Nat) → List Cand → List Cand × List (Nat × Nat × Nat)
  | seen, [] => ([], seen)
  | seen, c :: cs =>
    if candKey c ∈ seen then uniqFrom seen cs
    else (c :: (uniqFrom (candKey c :: seen) cs).1, (uniqFrom (candKey c :: seen) cs).2)

/-- The deduplication step of `find_hits`: one `seen` set shared across both
lists, the plausible list processed first. -/
def dedup (pl su : List Cand) : List Cand × List Cand :=
  let a := uniqFrom [] pl
  let b := uniqFrom a.2 su
  (a.1, b.1)

/-- `find_hits` (scan + classify + dedup), with the scan ranges passed in. -/
def find_hits (buf : List Nat) (sections : List Section)
    (ranges : List (Nat × Nat)) (noVC : Bool) : List Cand × List Cand :=
  let st := scanClassify buf sections ranges noVC
  dedup st.1 st.2

/-- Python `str.lower()` on a section name (per-character lowering; section
names are ASCII). -/
def lowerName (s : String) : String := String.mk (s.data.map Char.toLower)

/-- `sec_pref` from `main`: 0 for the preferred data-bearing section names
(case-insensitive), 1 otherwise. -/
def sec_pref (name : String) : Nat :=
  if lowerName name ∈ ["il2cpp", ".rdata", ".mrdata", ".data", ".rsrc", ".rsrc2", ".tvm0", ".pdata"]
  then 0 else 1

/-- The sort key `(sec_pref(c.sec.name), c.sec.end - c.off, c.off)` used for
`suspects_sorted` in `main`. -/
def rankKey (c : Cand) : Nat × Nat × Nat := (sec_pref c.sec.name, c.sec.stop - c.off, c.off)

/-- Lexicographic comparison of two sort-key triples (Python tuple `<=`). -/
def tupLe (x y : Nat × Nat × Nat) : Bool :=
  decide (x.1 < y.1) ||
    (decide (x.1 = y.1) &&
      (decide (x.2.1 < y.2.1) || (decide (x.2.1 = y.2.1) && decide (x.2.2 ≤ y.2.2))))

/-- The candidate ordering of the ranking chain. -/
def rankLe (a b : Cand) : Bool := tupLe (rankKey a) (rankKey b)

/-- `suspects_sorted = sorted(suspects, key=...)` in `main`. -/
def suspects_sorted (su : List Cand) : List Cand := su.mergeSort rankLe

/-- The `--out` candidate selection of `main` (lines 357-373): error (`none`)
when nothing can be picked, `plausible[index-1]` for a truthy in-range index,
`plausible[0]` otherwise, falling back to `suspects[0]` when version checking
is disabled and nothing was plausible. -/
def pickOut (plaus suspects : List Cand) (noVC : Bool) (index : Option Nat) : Option Cand :=
  if plaus.isEmpty && !noVC then none
  else if !plaus.isEmpty then
    match index with
    | some n =>
        if n ≠ 0 then
          (if 1 ≤ n ∧ n ≤ plaus.length then plaus[n - 1]? else none)
        else plaus.head?
    | none => plaus.head?
  else suspects.head?

/-- `carve_decoded`: carve `[c.off, c.sec.end + max(0, extend))` (a Python
`f.read` of a negative count reads to the end of the file) and decode per
mode. -/
def carve_decoded (buf : List Nat) (c : Cand) (extend : Int) : List Nat :=
  let start := c.off
  let stop := c.sec.stop + (max 0 extend).toNat
  let raw := if start ≤ stop then bslice buf start (stop - start) else buf.drop start
  if c.mode = "xor1" then decode_1xor raw (c.key.getD 0 0)
  else if c.mode = "xor4" then
    decode_4xor raw (c.key.getD 0 0) (c.key.getD 1 0) (c.key.getD 2 0) (c.key.getD 3 0)
  else raw

/-- Failure modes of the tiny PE parsers: the two `RuntimeError` signature
checks, the `struct.error` raised by an out-of-bounds `unpack_from`, and the
`RuntimeError` for an empty usable-section list. -/
inductive PEErr where
  | notMZ
  | badPESig
  | shortBuffer
  | noSections
deriving DecidableEq, Repr

deriving instance DecidableEq for Except

/-- `struct.unpack_from("<I", data, off)`: `none` models the `struct.error`
raised when fewer than 4 bytes remain. -/
def u32le? (data : List Nat) (off : Nat) : Option Nat :=
  if off + 4 ≤ data.length then some (le32 (bslice data off 4)) else none

/-- `struct.unpack_from("<H", data, off)`: 2-byte little-endian read. -/
def u16le? (data : List Nat) (off : Nat) : Option Nat :=
  if off + 2 ≤ data.length then some (byteAt data off + 256 * byteAt data (off + 1)) else none

/-- `raw_name.split(b"\x00", 1)[0].decode(errors="ignore")`: the bytes before
the first NUL, decoded per character (section names are ASCII). -/
def decodeName (bs : List Nat) : String :=
  String.mk (((bs.takeWhile (fun b => b ≠ 0)).filter (fun b => b < 128)).map Char.ofNat)

/-- One 40-byte `IMAGE_SECTION_HEADER` entry of `read_pe_sections`: reads the
name and the `SizeOfRawData`/`PointerToRawData` fields at `off+16`/`off+20`,
returning `none` for a section excluded from the usable list. -/
def readEntry (data : List Nat) (off : Nat) : Except PEErr (Option Section) :=
  match u32le? data (off + 16), u32le? data (off + 20) with
  | some size_raw, some ptr_raw =>
      .ok (if size_raw ≠ 0 ∧ ptr_raw ≠ 0
           then some ⟨decodeName (bslice data off 8), ptr_raw, ptr_raw + size_raw⟩
           else none)
  | _, _ => .error .shortBuffer

/-- The section-entry loop of `read_pe_sections` (`i` = current index, second
argument = entries left). -/
def readEntriesGo (data : List Nat) (sect_off : Nat) : Nat → Nat → Except PEErr (List Section)
  | _, 0 => .ok []
  | i, k + 1 =>
    match readEntry data (sect_off + i * 40) with
    | .error e => .error e
    | .ok osec =>
      match readEntriesGo data sect_off (i + 1) k with
      | .error e => .error e
      | .ok rest => .ok (match osec with | some s => s :: rest | none => rest)

/-- `read_pe_sections`: checks the `MZ` and `PE\0\0` signatures, reads the
COFF record, parses `num_sections` entries and returns the usable sections,
failing with `noSections` when that list is empty. -/
def read_pe_sections (data : List Nat) : Except PEErr (List Section) :=
  if data.take 2 ≠ [0x4D, 0x5A] then .error .notMZ
  else
    match u32le? data 0x3C with
    | none => .error .shortBuffer
    | some e_lfanew =>
      if bslice data e_lfanew 4 ≠ [0x50, 0x45, 0, 0] then .error .badPESig
      else if data.length < e_lfanew + 4 + 20 then .error .shortBuffer
      else
        match readEntriesGo data
            (e_lfanew + 4 + 20 +
              (byteAt data (e_lfanew + 4 + 16) + 256 * byteAt data (e_lfanew + 4 + 17)))
            0 (byteAt data (e_lfanew + 4 + 2) + 256 * byteAt data (e_lfanew + 4 + 3)) with
        | .error e => .error e
        | .ok secs => if secs = [] then .error .noSections else .ok secs

/-- A parsed section record of `bspr_runtime_dump.py`
(`(name, vaddr, rptr, rsize, vsize)`). -/
structure RawSec where
  name : String
  vaddr : Nat
  rptr : Nat
  rsize : Nat
  vsize : Nat
deriving DecidableEq, Repr

/-- Python bytearray slice assignment `out[a:b] = src` (for `a ≤ b`): the
clipped range `[a, b)` is replaced by `src`, changing the length when the
lengths differ. -/
def setSlice (out : List Nat) (a b : Nat) (src : List Nat) : List Nat :=
  out.take (min a out.length) ++ src ++ out.drop (min b out.length)

/-- `out_size = max(size_of_headers, max over sections of rptr + rsize)` of
`rebuild_pe_from_image`. -/
def outSizeOf (soh : Nat) (secs : List RawSec) : Nat :=
  secs.foldl (fun acc s => max acc (s.rptr + s.rsize)) soh

/-- The section-copy loop of `rebuild_pe_from_image`:
`out[rptr:rptr+rsize] = img[vaddr:vaddr+rsize]` for every section with
nonzero raw size. -/
def copySections (img : List Nat) (secs : List RawSec) (out : List Nat) : List Nat :=
  secs.foldl (fun o s =>
    if s.rsize = 0 then o
    else setSlice o s.rptr (s.rptr + s.rsize) (bslice img s.vaddr s.rsize)) out

/-- The layout-conversion core of `rebuild_pe_from_image` (lines 152-169):
allocate `out_size` zero bytes, copy the first `size_of_headers` bytes of the
virtual image verbatim, then copy every section's raw-size bytes from its
virtual start to its raw pointer. -/
def rebuildFromSections (img : List Nat) (soh : Nat) (secs : List RawSec) : List Nat :=
  copySections img secs
    (setSlice (List.replicate (outSizeOf soh secs) 0) 0 soh (bslice img 0 soh))

/-- The section-table loop of `rebuild_pe_from_image` (all parsed entries,
no usability filter). -/
def readRawSecsGo (img : List Nat) (sect_off : Nat) : Nat → Nat → Except PEErr (List RawSec)
  | _, 0 => .ok []
  | i, k + 1 =>
    let off := sect_off + i * 40
    match u32le? img (off + 8), u32le? img (off + 12), u32le? img (off + 16), u32le? img (off + 20) with
    | some vsize, some vaddr, some rsize, some rptr =>
      match readRawSecsGo img sect_off (i + 1) k with
      | .error e => .error e
      | .ok rest => .ok (⟨decodeName (bslice img off 8), vaddr, rptr, rsize, vsize⟩ :: rest)
    | _, _, _, _ => .error .shortBuffer

/-- `rebuild_pe_from_image` of `bspr_runtime_dump.py`: parse the in-memory
image's headers and section table, then convert to raw/file layout. -/
def rebuild_pe_from_image (img : List Nat) : Except PEErr (List Nat) :=
  if img.take 2 ≠ [0x4D, 0x5A] then .error .notMZ
  else
    match u32le? img 0x3C with
    | none => .error .shortBuffer
    | some e_lfanew =>
      if bslice img e_lfanew 4 ≠ [0x50, 0x45, 0, 0] then .error .badPESig
      else
        let coff := e_lfanew + 4
        match u16le? img (coff + 2), u16le? img (coff + 16), u32le? img (coff + 20 + 60) with
        | some num_sections, some opt_size, some size_of_headers =>
          match readRawSecsGo img (coff + 20 + opt_size) 0 num_sections with
          | .error e => .error e
          | .ok secs => .ok (rebuildFromSections img size_of_headers secs)
        | _, _, _ => .error .shortBuffer

/-! ## Concrete inputs used by counterexamples and witnesses -/

/-- A 32-byte buffer with a plain metadata header (version 24) at offset 0 and
another at offset 16. -/
def bufC1 : List Nat :=
  [0xAF, 0x1B, 0xB1, 0xFA, 24, 0, 0, 0, 0, 0, 0, 0, 0, 0, 0, 0,
   0xAF, 0x1B, 0xB1, 0xFA, 24, 0, 0, 0, 0, 0, 0, 0, 0, 0, 0, 0]

/-- A non-preferred-name section covering the first header of `bufC1`. -/
def secT : Section := ⟨".text", 0, 16⟩

/-- A preferred-name section covering the second header of `bufC1`. -/
def secD : Section := ⟨".data", 16, 32⟩

/-- An 8-byte section used by several concrete inputs. -/
def secR : Section := ⟨".data", 0, 8⟩

/-- A buffer holding the reversed magic followed by version bytes chosen so
that the xor4 pass decodes a plausible version (24) at the same offset while
the reversed-mode version is implausible. -/
def bufR : List Nat := [0xFA, 0xB1, 0x1B, 0xAF, 0x4D, 0xAA, 0xAA, 0x55]

/-- A buffer holding the reversed magic followed by a plausible version. -/
def bufC2 : List Nat := [0xFA, 0xB1, 0x1B, 0xAF, 24, 0, 0, 0]

/-- A buffer holding the verbatim magic followed by a plausible version. -/
def bufC3 : List Nat := [0xAF, 0x1B, 0xB1, 0xFA, 24, 0, 0, 0]

/-- The header `MAGIC ++ le4 100` XOR-encoded with the 4-byte key (1,2,3,4):
its decoded version 100 is implausible. -/
def bufC4 : List Nat := [0xAE, 0x19, 0xB2, 0xFE, 101, 2, 3, 4]

/-- Shorthand for a run of zero bytes. -/
def zeros (n : Nat) : List Nat := List.replicate n 0

/-- A 112-byte PE image whose single 40-byte section entry is cut off after
its raw-pointer field (the last 16 bytes of the section table are missing):
`e_lfanew = 0x40`, one section, zero-size optional header, so the section
table starts at 0x58 and would end at 0x80, past the end of the buffer. -/
def shortBuf : List Nat :=
  [0x4D, 0x5A] ++ zeros 0x3A ++ [0x40, 0, 0, 0] ++ [0x50, 0x45, 0, 0] ++
  [0, 0] ++ [1, 0] ++ zeros 12 ++ [0, 0] ++ [0, 0] ++
  [0x2E, 0x64, 0x61, 0x74, 0x61, 0, 0, 0] ++ zeros 8 ++ [0x10, 0, 0, 0] ++ [0x60, 0, 0, 0]

/-- The header `MAGIC ++ le4 24` XOR-encoded with the 1-byte key 1. -/
def bufC8 : List Nat := (MAGIC ++ le4 24).map (fun x => x ^^^ 1)

/-! ## Counterexamples -/

/-- C1 counterexample: on a scan of `bufC1` both headers are plausible; with
no explicit index the pick is the first candidate in scan order (in the
non-preferred `.text` section), even though the `.data` candidate is strictly
smaller under the ranking chain. -/
theorem c1_counterexample :
    (find_hits bufC1 [secT, secD] [(0, 32)] false).1 =
      [⟨0, "plain", [], some 24, secT⟩, ⟨16, "plain", [], some 24, secD⟩] ∧
    pickOut (find_hits bufC1 [secT, secD] [(0, 32)] false).1 [] false none =
      some ⟨0, "plain", [], some 24, secT⟩ ∧
    tupLe (rankKey ⟨16, "plain", [], some 24, secD⟩)
          (rankKey ⟨0, "plain", [], some 24, secT⟩) = true ∧
    tupLe (rankKey ⟨0, "plain", [], some 24, secT⟩)
          (rankKey ⟨16, "plain", [], some 24, secD⟩) = false := by decide

/-- C2 counterexample: a reversed-mode candidate produced by the scanner on
`bufC2` carves to the raw bytes unchanged — its first 4 bytes are the
reversed magic, not the forced magic constant. -/
theorem c2_counterexample :
    mkCandidate bufC2 [secR] false 0 "rev" [] =
      some (true, ⟨0, "rev", [], some 24, secR⟩) ∧
    carve_decoded bufC2 ⟨0, "rev", [], some 24, secR⟩ 0 =
      [0xFA, 0xB1, 0x1B, 0xAF, 24, 0, 0, 0] ∧
    (carve_decoded bufC2 ⟨0, "rev", [], some 24, secR⟩ 0).take 4 ≠ MAGIC := by decide

/-- C3 counterexample: with the magic verbatim at offset 0 of `bufC3`
followed by a plausible version, the plain pass hits at 0 but the xor4 pass
also hits at the same offset (with the all-zero derived key). -/
theorem c3_counterexample :
    plainHits bufC3 (0, 8) = [0] ∧
    xor4Hits bufC3 (0, 8) false = [(0, [0, 0, 0, 0])] := by decide

/-- C4 counterexample: `bufC4` carries a xor4-encoded header (keys 1,2,3,4)
whose decoded magic matches but whose decoded version 100 is implausible;
with version checking enabled the scan produces no candidate at all — in
particular the hit does not appear in the suspect set. -/
theorem c4_counterexample :
    xor4Keys bufC4 0 = [1, 2, 3, 4] ∧
    decode_4xor (bslice bufC4 0 8) 1 2 3 4 = MAGIC ++ [100, 0, 0, 0] ∧
    plaus_version 100 = false ∧
    find_hits bufC4 [secR] [(0, 8)] false = ([], []) := by decide

/-- C6 counterexample: `shortBuf` is too short to contain its computed
40-byte section table (it ends 16 bytes early), yet `read_pe_sections`
succeeds, because only the first 24 bytes of the entry are ever read. -/
theorem c6_counterexample :
    read_pe_sections shortBuf = .ok [⟨".data", 0x60, 0x70⟩] ∧
    shortBuf.length = 0x70 ∧ 0x70 < 0x58 + 1 * 40 := by decide

/-- C7 counterexample: on `bufR` the reversed pass (scanned second) yields a
suspect and the xor4 pass (scanned last) a plausible candidate at the same
dedup key; after deduplication the later-scanned plausible xor4 candidate is
the one retained, not the first encountered in scan order. -/
theorem c7_counterexample :
    scanHits bufR [(0, 8)] false =
      [(0, "rev", []), (0, "xor4", [0x55, 0xAA, 0xAA, 0x55])] ∧
    scanClassify bufR [secR] [(0, 8)] false =
      ([⟨0, "xor4", [0x55, 0xAA, 0xAA, 0x55], some 24, secR⟩],
       [⟨0, "rev", [], some 0x55AAAA4D, secR⟩]) ∧
    candKey ⟨0, "rev", [], some 0x55AAAA4D, secR⟩ =
      candKey ⟨0, "xor4", [0x55, 0xAA, 0xAA, 0x55], some 24, secR⟩ ∧
    find_hits bufR [secR] [(0, 8)] false =
      ([⟨0, "xor4", [0x55, 0xAA, 0xAA, 0x55], some 24, secR⟩], []) := by decide

/-! ## General lemmas about the embedding -/

theorem xor_cancel (x k : Nat) : (x ^^^ k) ^^^ k = x := by
  simp [Nat.xor_assoc]

theorem bslice_length {buf : List Nat} {i n : Nat} (h : i + n ≤ buf.length) :
    (bslice buf i n).length = n := by
  simp only [bslice, List.length_take, List.length_drop]
  omega

theorem bslice_getD {buf l : List Nat} {i n j : Nat}
    (h : bslice buf i n = l) (hj : j < l.length) : byteAt buf (i + j) = l.getD j 0 := by
  subst h
  simp only [bslice, List.length_take, List.length_drop, lt_inf_iff] at hj
  simp only [byteAt, List.getD_eq_getElem?_getD, bslice]
  rw [List.getElem?_take_of_lt hj.1, List.getElem?_drop]

theorem mem_range'_of (s n m : Nat) (h1 : s ≤ m) (h2 : m < s + n) :
    m ∈ List.range' s n := List.mem_range'_1.mpr ⟨h1, h2⟩

theorem le32_le4 (v : Nat) (hv : v < 4294967296) : le32 (le4 v) = v := by
  simp only [le32, le4, List.foldr]
  omega

theorem parse_header_version_le4 (v : Nat) (hv : v < 4294967296) :
    parse_header_version (MAGIC ++ le4 v) = some v := by
  have hlen : (MAGIC ++ le4 v).length = 8 := by simp [MAGIC, le4]
  have htake : (MAGIC ++ le4 v).take 4 = MAGIC := by
    have : (4 : Nat) = MAGIC.length := by simp [MAGIC]
    rw [this, List.take_left]
  have hdrop : bslice (MAGIC ++ le4 v) 4 4 = le4 v := by
    have hd : (MAGIC ++ le4 v).drop 4 = le4 v := by
      rw [show (4 : Nat) = MAGIC.length from rfl, List.drop_left]
    simp only [bslice]
    rw [hd, show (4 : Nat) = (le4 v).length from by simp [le4], List.take_length]
  rw [parse_header_version, if_neg (by omega), if_neg (by simp [htake]), hdrop, le32_le4 v hv]

theorem section_for_offset_bounds {sections : List Section} {i : Nat} {sec : Section}
    (h : section_for_offset sections i = some sec) : sec.start ≤ i ∧ i < sec.stop := by
  have := List.find?_some h
  simpa using this

/-- Structure of a successfully created candidate: offset, mode, key and
section come straight from the call, and the plausibility flag is
`noVC || (version present and plausible)`. -/
theorem mkCandidate_eq {buf : List Nat} {sections : List Section} {noVC : Bool}
    {i : Nat} {mode : String} {key : List Nat} {b : Bool} {c : Cand}
    (h : mkCandidate buf sections noVC i mode key = some (b, c)) :
    section_for_offset sections i = some c.sec ∧ c.off = i ∧ c.mode = mode ∧
    c.key = key ∧ b = (noVC || (c.ver.isSome && plaus_version (c.ver.getD 0))) ∧
    c.ver = parse_header_version (headerForMode buf i mode key) := by
  unfold mkCandidate at h
  split at h
  · exact absurd h (by simp)
  · rename_i sec hf
    split at h
    · rw [Option.some_inj, Prod.ext_iff] at h
      obtain ⟨hb, hc⟩ := h
      subst hc
      exact ⟨hf, rfl, rfl, rfl, hb.symm, rfl⟩
    · exact absurd h (by simp)

/-! ## C9: negative extend is clamped; the carve end never precedes the offset -/

/-- C9: for every candidate the scanner produces, carving with a non-positive
extend value yields byte-for-byte the same output as carving with extend 0,
and the carve end `c.sec.end + max(0, extend)` is never less than the
candidate's offset. -/
theorem c9_theorem (buf : List Nat) (sections : List Section) (noVC : Bool)
    (i : Nat) (mode : String) (key : List Nat) (b : Bool) (c : Cand)
    (h : mkCandidate buf sections noVC i mode key = some (b, c)) :
    (∀ e : Int, e ≤ 0 → carve_decoded buf c e = carve_decoded buf c 0) ∧
    (∀ e : Int, c.off ≤ c.sec.stop + (max 0 e).toNat) := by
  obtain ⟨hsec, hoff, -, -, -, -⟩ := mkCandidate_eq h
  have hbounds := section_for_offset_bounds hsec
  constructor
  · intro e he
    have h1 : max 0 e = (0 : Int) := max_eq_left he
    have h2 : max 0 (0 : Int) = (0 : Int) := max_self 0
    simp only [carve_decoded, h1, h2]
  · intro e
    have : c.off < c.sec.stop := hoff ▸ hbounds.2
    omega

/-- C9 witness: a concrete plain candidate of the scanner carved with
extend -5 equals the carve with extend 0, and its carve end bound holds. -/
theorem c9_witness :
    carve_decoded bufC3 ⟨0, "plain", [], some 24, secR⟩ (-5) =
      carve_decoded bufC3 ⟨0, "plain", [], some 24, secR⟩ 0 ∧
    (⟨0, "plain", [], some 24, secR⟩ : Cand).off ≤
      (⟨0, "plain", [], some 24, secR⟩ : Cand).sec.stop + (max 0 (-5 : Int)).toNat := by
  have h := c9_theorem bufC3 [secR] false 0 "plain" []
    true ⟨0, "plain", [], some 24, secR⟩ (by decide)
  exact ⟨h.1 (-5) (by decide), h.2 (-5)⟩

/-! ## C8: xor1 round trip -/

theorem take4_magic_append (l : List Nat) : (MAGIC ++ l).take 4 = MAGIC := by
  rw [show (4 : Nat) = MAGIC.length from rfl, List.take_left]

/-- C8: for every single-byte key `k` in `[1, 255]` and every buffer where the
8-byte header `MAGIC ++ le4 v` has been embedded at `off` XOR-ed with `k`
(inside a scanned range and a resolvable section), the xor1 pass hits at
`off` with recovered key `k`, and the resulting candidate decodes version
`v`. -/
theorem c8_theorem (buf : List Nat) (r : Nat × Nat) (sections : List Section)
    (sec : Section) (noVC : Bool) (off k v : Nat)
    (hk1 : 1 ≤ k) (hk2 : k ≤ 255) (hv : v < 4294967296)
    (hemb : bslice buf off 8 = (MAGIC ++ le4 v).map (fun x => x ^^^ k))
    (hbeg : r.1 ≤ off) (hend : off + 8 ≤ r.2)
    (hsec : section_for_offset sections off = some sec) :
    (off, k) ∈ xor1Hits buf r ∧
    mkCandidate buf sections noVC off "xor1" [k] =
      some (noVC || plaus_version v, ⟨off, "xor1", [k], some v, sec⟩) := by
  have hlen : ((MAGIC ++ le4 v).map (fun x => x ^^^ k)).length = 8 := by simp [MAGIC, le4]
  have hb : ∀ j, j < 8 → byteAt buf (off + j) =
      ((MAGIC ++ le4 v).map (fun x => x ^^^ k)).getD j 0 :=
    fun j hj => bslice_getD hemb (by rw [hlen]; exact hj)
  have hb0 : byteAt buf off = 0xAF ^^^ k := by
    have := hb 0 (by norm_num); simpa [MAGIC, le4] using this
  have hb1 : byteAt buf (off + 1) = 0x1B ^^^ k := by
    have := hb 1 (by norm_num); simpa [MAGIC, le4] using this
  have hb2 : byteAt buf (off + 2) = 0xB1 ^^^ k := by
    have := hb 2 (by norm_num); simpa [MAGIC, le4] using this
  have hb3 : byteAt buf (off + 3) = 0xFA ^^^ k := by
    have := hb 3 (by norm_num); simpa [MAGIC, le4] using this
  have hkey : xor1Key buf off = k := by
    rw [xor1Key, hb0, show MAGIC.getD 0 0 = 0xAF from rfl, Nat.xor_comm 0xAF k, xor_cancel]
  have hkmod : k % 256 = k := Nat.mod_eq_of_lt (by omega)
  constructor
  · refine List.mem_map.mpr ⟨off, List.mem_filter.mpr ⟨mem_range'_of _ _ _ hbeg (by omega), ?_⟩,
      by rw [hkey]⟩
    simp only [Bool.and_eq_true, decide_eq_true_eq]
    refine ⟨⟨⟨⟨hend, by rw [hkey]; omega⟩, ?_⟩, ?_⟩, ?_⟩
    · rw [hkey, hb1, show MAGIC.getD 1 0 = 0x1B from rfl]; exact xor_cancel 0x1B k
    · rw [hkey, hb2, show MAGIC.getD 2 0 = 0xB1 from rfl]; exact xor_cancel 0xB1 k
    · rw [hkey, hb3, show MAGIC.getD 3 0 = 0xFA from rfl]; exact xor_cancel 0xFA k
  · have hdr : headerForMode buf off "xor1" [k] = MAGIC ++ le4 v := by
      have h1 : headerForMode buf off "xor1" [k] = decode_1xor (bslice buf off 8) k := by
        simp [headerForMode]
      rw [h1, hemb, decode_1xor, List.map_map]
      have : ∀ x ∈ MAGIC ++ le4 v,
          ((fun x => x ^^^ k % 256) ∘ fun x => x ^^^ k) x = id x := by
        intro x _
        simp only [Function.comp, hkmod, id]
        exact xor_cancel x k
      rw [List.map_congr_left this, List.map_id]
    unfold mkCandidate
    rw [hsec]
    dsimp only
    rw [hdr, if_pos (take4_magic_append (le4 v)), parse_header_version_le4 v hv]
    simp

/-- C8 witness: the header `MAGIC ++ le4 24` XOR-encoded with key 1 inside a
usable section is recovered by the xor1 pass at offset 0 with key 1 and
decoded version 24. -/
theorem c8_witness :
    (0, 1) ∈ xor1Hits bufC8 (0, 8) ∧
    mkCandidate bufC8 [secR] false 0 "xor1" [1] =
      some (false || plaus_version 24, ⟨0, "xor1", [1], some 24, secR⟩) :=
  c8_theorem bufC8 (0, 8) [secR] secR false 0 1 24
    (by decide) (by decide) (by decide) (by decide) (by decide) (by decide) (by decide)

/-! ## C2: reversed-mode carving is a pure identity -/

/-- C2 (amended): for every candidate in reversed mode, `carve_decoded`
applies no transformation at all — it returns exactly the bytes a plain-mode
candidate at the same location would return.  The magic constant is forced
only inside the header validation of `add_candidate`, never in the carve
output. -/
theorem c2_theorem (buf : List Nat) (c : Cand) (e : Int) (h : c.mode = "rev") :
    carve_decoded buf c e = carve_decoded buf { c with mode := "plain" } e := by
  simp [carve_decoded, h]

/-- C2 witness: the concrete reversed candidate of `bufC2` carves exactly as
a plain candidate would. -/
theorem c2_witness :
    carve_decoded bufC2 ⟨0, "rev", [], some 24, secR⟩ 0 =
      carve_decoded bufC2 ⟨0, "plain", [], some 24, secR⟩ 0 :=
  c2_theorem bufC2 ⟨0, "rev", [], some 24, secR⟩ 0 rfl

/-! ## C3: a verbatim magic match and the four passes -/

theorem all_zero_getD (j : Nat) : ([0, 0, 0, 0] : List Nat).getD j 0 = 0 := by
  rcases j with _ | _ | _ | _ | j <;> simp [List.getD]

theorem decode_4xor_zero (b : List Nat) : decode_4xor b 0 0 0 0 = b := by
  rw [decode_4xor]
  show xorCycle [0, 0, 0, 0] 0 b = b
  suffices h : ∀ i, xorCycle [0, 0, 0, 0] i b = b from h 0
  induction b with
  | nil => intro i; rfl
  | cons x xs ih =>
      intro i
      rw [xorCycle, all_zero_getD, Nat.xor_zero, ih]

/-- C3 (amended): whenever the 4-byte magic appears verbatim at an offset of
a scanned range, the plain pass hits exactly there, neither the reversed nor
the xor1 pass ever hits at that offset, and any xor4 hit at that offset
carries the degenerate all-zero key — which happens exactly when a full
8-byte window is available and the following version field is plausible. -/
theorem c3_theorem (buf : List Nat) (r : Nat × Nat) (off : Nat)
    (hbeg : r.1 ≤ off) (hend : off + 4 ≤ r.2)
    (hmag : bslice buf off 4 = MAGIC) :
    off ∈ plainHits buf r ∧
    off ∉ revHits buf r ∧
    (∀ k, (off, k) ∉ xor1Hits buf r) ∧
    (∀ ks, (off, ks) ∈ xor4Hits buf r false → ks = [0, 0, 0, 0]) ∧
    (off + 8 ≤ r.2 → off + 8 ≤ buf.length →
      plaus_version (le32 (bslice buf (off + 4) 4)) = true →
      (off, [0, 0, 0, 0]) ∈ xor4Hits buf r false) := by
  have hmlen : (MAGIC : List Nat).length = 4 := by simp [MAGIC]
  have hb : ∀ j, j < 4 → byteAt buf (off + j) = MAGIC.getD j 0 :=
    fun j hj => bslice_getD hmag (by rw [hmag, hmlen] at *; exact hj)
  have hb0 : byteAt buf off = 0xAF := by have := hb 0 (by norm_num); simpa [MAGIC] using this
  have hb1 : byteAt buf (off + 1) = 0x1B := by
    have := hb 1 (by norm_num); simpa [MAGIC] using this
  have hb2 : byteAt buf (off + 2) = 0xB1 := by
    have := hb 2 (by norm_num); simpa [MAGIC] using this
  have hb3 : byteAt buf (off + 3) = 0xFA := by
    have := hb 3 (by norm_num); simpa [MAGIC] using this
  have hkeys : xor4Keys buf off = [0, 0, 0, 0] := by
    simp [xor4Keys, hb0, hb1, hb2, hb3, MAGIC]
  refine ⟨?_, ?_, ?_, ?_, ?_⟩
  · exact List.mem_filter.mpr ⟨mem_range'_of _ _ _ hbeg (by omega),
      by simp only [Bool.and_eq_true, decide_eq_true_eq]; exact ⟨hend, hmag⟩⟩
  · intro hmem
    have := (List.mem_filter.mp hmem).2
    simp only [Bool.and_eq_true, decide_eq_true_eq] at this
    rw [hmag] at this
    exact absurd this.2 (by decide)
  · intro k hmem
    obtain ⟨i, hi, hpair⟩ := List.mem_map.mp hmem
    have hieq : i = off := congrArg Prod.fst hpair
    subst hieq
    have := (List.mem_filter.mp hi).2
    simp only [Bool.and_eq_true, decide_eq_true_eq] at this
    have hzero : xor1Key buf i = 0 := by
      rw [xor1Key, hb0, show MAGIC.getD 0 0 = 0xAF from rfl, Nat.xor_self]
    exact this.1.1.1.2 hzero
  · intro ks hmem
    obtain ⟨i, _, hpair⟩ := List.mem_map.mp hmem
    have hieq : i = off := congrArg Prod.fst hpair
    subst hieq
    have := congrArg Prod.snd hpair
    simp only at this
    rw [← this, hkeys]
  · intro h8 hlen hpl
    have hhdr : xor4Header buf off = bslice buf off 8 := by
      rw [xor4Header, hkeys]
      show decode_4xor (bslice buf off 8) 0 0 0 0 = _
      exact decode_4xor_zero _
    have htake : (bslice buf off 8).take 4 = MAGIC := by
      rw [← hmag]
      simp [bslice, List.take_take]
    have hlen8 : (bslice buf off 8).length = 8 := bslice_length hlen
    have hsub : bslice (bslice buf off 8) 4 4 = bslice buf (off + 4) 4 := by
      simp only [bslice, List.drop_take, List.drop_drop, List.take_take]
      norm_num
    have hver : parse_header_version (xor4Header buf off) =
        some (le32 (bslice buf (off + 4) 4)) := by
      rw [hhdr, parse_header_version, if_neg (by omega), if_neg (by simp [htake]), hsub]
    refine List.mem_map.mpr ⟨off, List.mem_filter.mpr ⟨mem_range'_of _ _ _ hbeg (by omega), ?_⟩,
      by rw [hkeys]⟩
    simp only [Bool.and_eq_true, decide_eq_true_eq, Bool.or_eq_true]
    refine ⟨⟨h8, by rw [hhdr]; exact htake⟩, Or.inr ?_⟩
    rw [hver]
    simpa using hpl

/-- C3 witness: on `bufC3` (magic at offset 0, version 24) the plain pass
hits at 0, the reversed and xor1 passes do not, and the xor4 pass hits at 0
with the all-zero key. -/
theorem c3_witness :
    0 ∈ plainHits bufC3 (0, 8) ∧
    0 ∉ revHits bufC3 (0, 8) ∧
    (∀ k, (0, k) ∉ xor1Hits bufC3 (0, 8)) ∧
    (∀ ks, (0, ks) ∈ xor4Hits bufC3 (0, 8) false → ks = [0, 0, 0, 0]) ∧
    (0 + 8 ≤ 8 → 0 + 8 ≤ bufC3.length →
      plaus_version (le32 (bslice bufC3 (0 + 4) 4)) = true →
      (0, [0, 0, 0, 0]) ∈ xor4Hits bufC3 (0, 8) false) :=
  c3_theorem bufC3 (0, 8) 0 (by decide) (by decide) (by decide)

/-! ## C1: what actually gets ranked, and what gets picked -/

theorem tupLe_iff (x y : Nat × Nat × Nat) : tupLe x y = true ↔
    (x.1 < y.1 ∨ (x.1 = y.1 ∧ (x.2.1 < y.2.1 ∨ (x.2.1 = y.2.1 ∧ x.2.2 ≤ y.2.2)))) := by
  simp [tupLe]

theorem rankLe_trans (a b c : Cand) (h1 : rankLe a b = true) (h2 : rankLe b c = true) :
    rankLe a c = true := by
  rw [rankLe, tupLe_iff] at *
  omega

theorem rankLe_total (a b : Cand) : (rankLe a b || rankLe b a) = true := by
  rw [Bool.or_eq_true, rankLe, rankLe, tupLe_iff, tupLe_iff]
  omega

/-- C1 (amended): the ranking chain (preferred section name, shorter carve,
lower offset) orders the suspect dump — `suspects_sorted` is a chain-sorted
permutation of the suspect set — but when one candidate must be written with
no explicit index, `main` picks the first plausible candidate in scan/dedup
order, without applying the chain. -/
theorem c1_theorem :
    (∀ pl su : List Cand, pl ≠ [] → pickOut pl su false none = pl.head?) ∧
    (∀ su : List Cand,
      List.Pairwise (fun a b => rankLe a b = true) (suspects_sorted su) ∧
      (suspects_sorted su).Perm su) := by
  constructor
  · intro pl su h
    cases pl with
    | nil => exact absurd rfl h
    | cons x xs => simp [pickOut]
  · intro su
    exact ⟨List.sorted_mergeSort rankLe_trans rankLe_total su, List.mergeSort_perm su rankLe⟩

/-- C1 witness: the pick rule and the suspect ordering at concrete lists. -/
theorem c1_witness :
    pickOut [⟨0, "plain", [], some 24, secT⟩, ⟨16, "plain", [], some 24, secD⟩] [] false none =
      ([⟨0, "plain", [], some 24, secT⟩, ⟨16, "plain", [], some 24, secD⟩] : List Cand).head? ∧
    List.Pairwise (fun a b => rankLe a b = true)
      (suspects_sorted [⟨0, "plain", [], some 99, secT⟩, ⟨16, "plain", [], some 99, secD⟩]) ∧
    (suspects_sorted [⟨0, "plain", [], some 99, secT⟩, ⟨16, "plain", [], some 99, secD⟩]).Perm
      [⟨0, "plain", [], some 99, secT⟩, ⟨16, "plain", [], some 99, secD⟩] :=
  ⟨c1_theorem.1 _ [] (by decide),
   (c1_theorem.2 [⟨0, "plain", [], some 99, secT⟩, ⟨16, "plain", [], some 99, secD⟩]).1,
   (c1_theorem.2 [⟨0, "plain", [], some 99, secT⟩, ⟨16, "plain", [], some 99, secD⟩]).2⟩

/-! ## Deduplication lemmas (C7, C10) -/

theorem uniqFrom_sub : ∀ (seen : List (Nat × Nat × Nat)) (l : List Cand) (c : Cand),
    c ∈ (uniqFrom seen l).1 → c ∈ l := by
  intro seen l
  induction l generalizing seen with
  | nil => intro c h; simp [uniqFrom] at h
  | cons x xs ih =>
    intro c h
    rw [uniqFrom] at h
    split at h
    · exact List.mem_cons_of_mem x (ih seen c h)
    · rcases List.mem_cons.mp h with h1 | h2
      · exact h1 ▸ List.mem_cons_self x xs
      · exact List.mem_cons_of_mem x (ih _ c h2)

theorem uniqFrom_notseen : ∀ (seen : List (Nat × Nat × Nat)) (l : List Cand) (c : Cand),
    c ∈ (uniqFrom seen l).1 → candKey c ∉ seen := by
  intro seen l
  induction l generalizing seen with
  | nil => intro c h; simp [uniqFrom] at h
  | cons x xs ih =>
    intro c h
    rw [uniqFrom] at h
    split at h
    · exact ih seen c h
    · rename_i hnot
      rcases List.mem_cons.mp h with h1 | h2
      · rw [h1]; exact hnot
      · have hrec := ih _ c h2
        exact fun hs => hrec (List.mem_cons_of_mem _ hs)

theorem uniqFrom_seen_iff : ∀ (seen : List (Nat × Nat × Nat)) (l : List Cand)
    (k : Nat × Nat × Nat), k ∈ (uniqFrom seen l).2 ↔ k ∈ seen ∨ k ∈ l.map candKey := by
  intro seen l
  induction l generalizing seen with
  | nil => intro k; simp [uniqFrom]
  | cons x xs ih =>
    intro k
    rw [uniqFrom]
    split
    · rename_i hin
      rw [ih]
      simp only [List.map_cons, List.mem_cons]
      constructor
      · rintro (h | h)
        · exact Or.inl h
        · exact Or.inr (Or.inr h)
      · rintro (h | h | h)
        · exact Or.inl h
        · exact Or.inl (h ▸ hin)
        · exact Or.inr h
    · rw [ih]
      simp only [List.map_cons, List.mem_cons]
      tauto

theorem uniqFrom_nodup : ∀ (seen : List (Nat × Nat × Nat)) (l : List Cand),
    (((uniqFrom seen l).1).map candKey).Nodup := by
  intro seen l
  induction l generalizing seen with
  | nil => simp [uniqFrom]
  | cons x xs ih =>
    rw [uniqFrom]
    split
    · exact ih seen
    · simp only [List.map_cons, List.nodup_cons]
      constructor
      · intro hmem
        obtain ⟨d, hd, hdk⟩ := List.mem_map.mp hmem
        have h1 := uniqFrom_notseen _ _ _ hd
        rw [hdk] at h1
        exact h1 (List.mem_cons_self _ _)
      · exact ih _

theorem uniqFrom_first : ∀ (seen : List (Nat × Nat × Nat)) (l : List Cand)
    (k : Nat × Nat × Nat), k ∉ seen → k ∈ l.map candKey →
    ∃ d, l.find? (fun x => decide (candKey x = k)) = some d ∧
      d ∈ (uniqFrom seen l).1 ∧ candKey d = k := by
  intro seen l
  induction l generalizing seen with
  | nil => intro k _ h; simp at h
  | cons x xs ih =>
    intro k hk hex
    by_cases hx : candKey x = k
    · refine ⟨x, ?_, ?_, hx⟩
      · rw [List.find?_cons_of_pos _ (by simp [hx])]
      · rw [uniqFrom]
        split
        · rename_i hin
          exact absurd (hx ▸ hin) hk
        · exact List.mem_cons_self _ _
    · have hex' : k ∈ xs.map candKey := by
        simp only [List.map_cons, List.mem_cons] at hex
        rcases hex with h | h
        · exact absurd h.symm hx
        · exact h
      rw [uniqFrom]
      split
      · obtain ⟨d, hfind, hmem, hdk⟩ := ih seen k hk hex'
        exact ⟨d, by rw [List.find?_cons_of_neg _ (by simp [hx])]; exact hfind, hmem, hdk⟩
      · have hk' : k ∉ candKey x :: seen := by
          intro hc
          rcases List.mem_cons.mp hc with h | h
          · exact hx h.symm
          · exact hk h
        obtain ⟨d, hfind, hmem, hdk⟩ := ih _ k hk' hex'
        exact ⟨d, by rw [List.find?_cons_of_neg _ (by simp [hx])]; exact hfind,
          List.mem_cons_of_mem _ hmem, hdk⟩

theorem uniqFrom_cover (seen : List (Nat × Nat × Nat)) (l : List Cand)
    (k : Nat × Nat × Nat) (h : k ∈ l.map candKey) :
    k ∈ seen ∨ ∃ d, d ∈ (uniqFrom seen l).1 ∧ candKey d = k := by
  by_cases hk : k ∈ seen
  · exact Or.inl hk
  · obtain ⟨d, -, hmem, hdk⟩ := uniqFrom_first seen l k hk h
    exact Or.inr ⟨d, hmem, hdk⟩

theorem dedup_keys_nodup (pl su : List Cand) :
    (((dedup pl su).1 ++ (dedup pl su).2).map candKey).Nodup := by
  have hd1 : (dedup pl su).1 = (uniqFrom [] pl).1 := rfl
  have hd2 : (dedup pl su).2 = (uniqFrom (uniqFrom [] pl).2 su).1 := rfl
  rw [hd1, hd2, List.map_append]
  refine List.Nodup.append (uniqFrom_nodup _ _) (uniqFrom_nodup _ _) ?_
  intro k hkp hks
  obtain ⟨c, hc, hck⟩ := List.mem_map.mp hkp
  obtain ⟨c', hc', hck'⟩ := List.mem_map.mp hks
  have h1 : k ∈ (uniqFrom [] pl).2 := by
    rw [uniqFrom_seen_iff]
    exact Or.inr (hck ▸ List.mem_map_of_mem candKey (uniqFrom_sub _ _ _ hc))
  exact uniqFrom_notseen _ _ _ hc' (hck' ▸ h1)

/-- C7 (amended): after deduplication the two lists carry pairwise-distinct
location keys and cover every scanned key; within the plausible list the
retained candidate at a key is the first one in scan order; but across the
two lists the plausible list takes precedence, so a plausible hit survives
over an earlier-scanned suspect hit at the same key (see the
counterexample). -/
theorem c7_theorem (pl su : List Cand) :
    (((dedup pl su).1 ++ (dedup pl su).2).map candKey).Nodup ∧
    (∀ c, c ∈ (dedup pl su).1 → c ∈ pl) ∧
    (∀ c, c ∈ (dedup pl su).2 → c ∈ su) ∧
    (∀ c, c ∈ pl → ∃ d, pl.find? (fun x => decide (candKey x = candKey c)) = some d ∧
        d ∈ (dedup pl su).1 ∧ candKey d = candKey c) ∧
    (∀ c, c ∈ pl ++ su → ∃ d, d ∈ (dedup pl su).1 ++ (dedup pl su).2 ∧
        candKey d = candKey c) := by
  have hd1 : (dedup pl su).1 = (uniqFrom [] pl).1 := rfl
  have hd2 : (dedup pl su).2 = (uniqFrom (uniqFrom [] pl).2 su).1 := rfl
  refine ⟨dedup_keys_nodup pl su, ?_, ?_, ?_, ?_⟩
  · intro c hc
    exact uniqFrom_sub _ _ _ (hd1 ▸ hc)
  · intro c hc
    exact uniqFrom_sub _ _ _ (hd2 ▸ hc)
  · intro c hc
    obtain ⟨d, hfind, hmem, hdk⟩ := uniqFrom_first [] pl (candKey c) (by simp)
      (List.mem_map_of_mem candKey hc)
    exact ⟨d, hfind, hd1 ▸ hmem, hdk⟩
  · intro c hc
    rcases List.mem_append.mp hc with hcp | hcs
    · obtain ⟨d, -, hmem, hdk⟩ := uniqFrom_first [] pl (candKey c) (by simp)
        (List.mem_map_of_mem candKey hcp)
      exact ⟨d, List.mem_append.mpr (Or.inl (hd1 ▸ hmem)), hdk⟩
    · rcases uniqFrom_cover ((uniqFrom [] pl).2) su (candKey c)
        (List.mem_map_of_mem candKey hcs) with hseen | ⟨d, hmem, hdk⟩
      · rw [uniqFrom_seen_iff] at hseen
        rcases hseen with h | h
        · simp at h
        · obtain ⟨d, -, hmem, hdk⟩ := uniqFrom_first [] pl (candKey c) (by simp) h
          exact ⟨d, List.mem_append.mpr (Or.inl (hd1 ▸ hmem)), hdk⟩
      · exact ⟨d, List.mem_append.mpr (Or.inr (hd2 ▸ hmem)), hdk⟩

/-- First of two same-key plausible candidates used by the dedup witnesses. -/
def candA1 : Cand := ⟨0, "plain", [], some 24, secR⟩

/-- Second same-key plausible candidate used by the dedup witnesses. -/
def candA2 : Cand := ⟨0, "xor4", [0, 0, 0, 0], some 24, secR⟩

/-- A suspect candidate at the same location key, used by the dedup
witnesses. -/
def candS1 : Cand := ⟨0, "rev", [], some 0, secR⟩

/-- C7 witness: the first-plausible-retained and key-cover parts applied to
concrete candidate lists. -/
theorem c7_witness :
    (∃ d, ([candA1, candA2].find? (fun x => decide (candKey x = candKey candA2))) = some d ∧
        d ∈ (dedup [candA1, candA2] [candS1]).1 ∧ candKey d = candKey candA2) ∧
    (∃ d, d ∈ (dedup [candA1, candA2] [candS1]).1 ++ (dedup [candA1, candA2] [candS1]).2 ∧
        candKey d = candKey candS1) :=
  ⟨(c7_theorem [candA1, candA2] [candS1]).2.2.2.1 candA2 (by decide),
   (c7_theorem [candA1, candA2] [candS1]).2.2.2.2 candS1 (by decide)⟩

/-- C10: deduplication shares one seen-set across the two lists, the
plausible list processed first: the union of the deduplicated lists holds at
most one candidate per location key, and a suspect whose key already occurs
among the plausible candidates is removed from the suspect output. -/
theorem c10_theorem (pl su : List Cand) :
    (((dedup pl su).1 ++ (dedup pl su).2).map candKey).Nodup ∧
    (∀ c, c ∈ su → candKey c ∈ pl.map candKey → c ∉ (dedup pl su).2) := by
  have hd2 : (dedup pl su).2 = (uniqFrom (uniqFrom [] pl).2 su).1 := rfl
  refine ⟨dedup_keys_nodup pl su, ?_⟩
  intro c _ hkey hmem
  have h1 := uniqFrom_notseen _ _ _ (hd2 ▸ hmem)
  apply h1
  rw [uniqFrom_seen_iff]
  exact Or.inr hkey

/-- C10 witness: a suspect at the same resolved location as a plausible
candidate is removed from the deduplicated suspect list. -/
theorem c10_witness : candS1 ∉ (dedup [candA1] [candS1]).2 :=
  (c10_theorem [candA1] [candS1]).2 candS1 (by decide) (by decide)

/-! ## C4: which hits reach the suspect set -/

/-- A buffer holding the reversed magic followed by zero version bytes: the
reversed pass yields a suspect (version 0), no other pass fires. -/
def bufRev0 : List Nat := [0xFA, 0xB1, 0x1B, 0xAF, 0, 0, 0, 0]

theorem headerForMode_xor4 (buf : List Nat) (i : Nat) (ks : List Nat) :
    headerForMode buf i "xor4" ks =
      decode_4xor (bslice buf i 8) (ks.getD 0 0) (ks.getD 1 0) (ks.getD 2 0) (ks.getD 3 0) := by
  simp [headerForMode]

theorem mkCandidate_xor4_plaus (buf : List Nat) (sections : List Section) (i : Nat)
    (hcond1 : (parse_header_version (xor4Header buf i)).isSome = true)
    (hcond2 : plaus_version ((parse_header_version (xor4Header buf i)).getD 0) = true) :
    ∀ p : Bool × Cand,
      mkCandidate buf sections false i "xor4" (xor4Keys buf i) = some p → p.1 = true := by
  intro p hmk
  obtain ⟨b, c⟩ := p
  obtain ⟨-, -, -, -, hb, hver⟩ := mkCandidate_eq hmk
  have hh : headerForMode buf i "xor4" (xor4Keys buf i) = xor4Header buf i := by
    rw [headerForMode_xor4]; rfl
  rw [hh] at hver
  show b = true
  rw [hb]
  simp only [Bool.false_or, Bool.and_eq_true]
  exact ⟨hver ▸ hcond1, hver ▸ hcond2⟩

theorem foldl_addCandidate_suspects (buf : List Nat) (sections : List Section) (noVC : Bool) :
    ∀ (L : List (Nat × String × List Nat)) (st : List Cand × List Cand),
    (∀ h ∈ L, h.2.1 = "xor4" →
      ∀ p : Bool × Cand, mkCandidate buf sections noVC h.1 h.2.1 h.2.2 = some p →
        p.1 = true) →
    ∀ c ∈ (L.foldl (addCandidate buf sections noVC) st).2, c ∈ st.2 ∨ c.mode ≠ "xor4" := by
  intro L
  induction L with
  | nil => intro st _ c hc; exact Or.inl hc
  | cons hd tl ih =>
    intro st hL c hc
    rw [List.foldl_cons] at hc
    rcases ih (addCandidate buf sections noVC st hd)
        (fun h hm => hL h (List.mem_cons_of_mem _ hm)) c hc with hin | hmode
    · unfold addCandidate at hin
      split at hin
      · exact Or.inl hin
      · exact Or.inl hin
      · rename_i c' heq
        rcases List.mem_append.mp hin with h1 | h2
        · exact Or.inl h1
        · have hc' : c = c' := by simpa using h2
          subst hc'
          right
          intro hx4
          have hmode' := (mkCandidate_eq heq).2.2.1
          have htag : hd.2.1 = "xor4" := by rw [← hmode']; exact hx4
          have := hL hd (List.mem_cons_self _ _) htag (false, c) heq
          simp at this
    · exact Or.inr hmode

theorem scanHits_xor4_sound (buf : List Nat) (sections : List Section)
    (ranges : List (Nat × Nat)) :
    ∀ h ∈ scanHits buf ranges false, h.2.1 = "xor4" →
      ∀ p : Bool × Cand, mkCandidate buf sections false h.1 h.2.1 h.2.2 = some p →
        p.1 = true := by
  intro h hmem htag
  rw [scanHits] at hmem
  rcases List.mem_append.mp hmem with hmem3 | hx4
  · rcases List.mem_append.mp hmem3 with hmem2 | hx1
    · rcases List.mem_append.mp hmem2 with hplain | hrev
      · obtain ⟨l, hl, hin⟩ := List.mem_flatten.mp hplain
        obtain ⟨r, -, hleq⟩ := List.mem_map.mp hl
        subst hleq
        obtain ⟨i, -, heq⟩ := List.mem_map.mp hin
        rw [← heq] at htag
        simp at htag
      · obtain ⟨l, hl, hin⟩ := List.mem_flatten.mp hrev
        obtain ⟨r, -, hleq⟩ := List.mem_map.mp hl
        subst hleq
        obtain ⟨i, -, heq⟩ := List.mem_map.mp hin
        rw [← heq] at htag
        simp at htag
    · obtain ⟨l, hl, hin⟩ := List.mem_flatten.mp hx1
      obtain ⟨r, -, hleq⟩ := List.mem_map.mp hl
      subst hleq
      obtain ⟨q, -, heq⟩ := List.mem_map.mp hin
      rw [← heq] at htag
      simp at htag
  · obtain ⟨l, hl, hin⟩ := List.mem_flatten.mp hx4
    obtain ⟨r, -, hleq⟩ := List.mem_map.mp hl
    subst hleq
    obtain ⟨q, hq, heq⟩ := List.mem_map.mp hin
    obtain ⟨i0, ks0⟩ := q
    obtain ⟨j, hj, hpair⟩ := List.mem_map.mp hq
    have hji : j = i0 := congrArg Prod.fst hpair
    subst hji
    have hks : xor4Keys buf j = ks0 := congrArg Prod.snd hpair
    have hcond := (List.mem_filter.mp hj).2
    simp only [Bool.and_eq_true, Bool.false_or, decide_eq_true_eq] at hcond
    intro p hmk
    rw [← heq] at hmk
    rw [← hks] at hmk
    exact mkCandidate_xor4_plaus buf sections j hcond.2.1 hcond.2.2 p hmk

/-- C4 (amended): with version checking enabled, an accepted hit that
resolves to a section is classified as suspect exactly when its decoded
version is absent or implausible — but the xor4 pass filters implausible
versions before `add_candidate`, so no xor4-mode candidate ever reaches the
suspect set (only plain, reversed and xor1 hits can). -/
theorem c4_theorem :
    (∀ (buf : List Nat) (sections : List Section) (ranges : List (Nat × Nat)) (c : Cand),
       c ∈ (find_hits buf sections ranges false).2 → c.mode ≠ "xor4") ∧
    (∀ (buf : List Nat) (sections : List Section) (i : Nat) (mode : String)
       (key : List Nat) (b : Bool) (c : Cand),
       mkCandidate buf sections false i mode key = some (b, c) →
       (b = false ↔ ¬ ∃ v, c.ver = some v ∧ 10 ≤ v ∧ v ≤ 50)) := by
  constructor
  · intro buf sections ranges c hc
    have hfh : (find_hits buf sections ranges false).2 =
        (uniqFrom (uniqFrom [] (scanClassify buf sections ranges false).1).2
          (scanClassify buf sections ranges false).2).1 := rfl
    have hsub : c ∈ (scanClassify buf sections ranges false).2 :=
      uniqFrom_sub _ _ _ (hfh ▸ hc)
    have hsc : (scanClassify buf sections ranges false).2 =
        ((scanHits buf ranges false).foldl (addCandidate buf sections false) ([], [])).2 := rfl
    rcases foldl_addCandidate_suspects buf sections false (scanHits buf ranges false) ([], [])
        (scanHits_xor4_sound buf sections ranges) c (hsc ▸ hsub) with h | h
    · simp at h
    · exact h
  · intro buf sections i mode key b c hmk
    obtain ⟨-, -, -, -, hb, -⟩ := mkCandidate_eq hmk
    rw [hb]
    cases hver : c.ver with
    | none => simp [hver, plaus_version]
    | some v => simp [hver, plaus_version]

/-- C4 witness: the concrete reversed suspect of `bufRev0` is not a xor4
candidate, and its suspect flag corresponds to its implausible version 0. -/
theorem c4_witness :
    (⟨0, "rev", [], some 0, secR⟩ : Cand).mode ≠ "xor4" ∧
    (false = false ↔
      ¬ ∃ v, (⟨0, "rev", [], some 0, secR⟩ : Cand).ver = some v ∧ 10 ≤ v ∧ v ≤ 50) :=
  ⟨c4_theorem.1 bufRev0 [secR] [(0, 8)] _ (by decide),
   c4_theorem.2 bufRev0 [secR] 0 "rev" [] false _ (by decide)⟩

/-! ## C6: failure behavior of the section-table parser -/

/-- C6 (amended): the parser fails with `notMZ`/`badPESig` when a signature
check fails, fails with a short-buffer error when the extension pointer or
the fixed COFF record cannot be read, reports `noSections` (rather than an
empty list) when the parsed entries yield zero usable sections, and never
returns an empty section list.  (A buffer missing only the trailing 16 bytes
of the final 40-byte entry still parses — see the counterexample.) -/
theorem c6_theorem :
    (∀ (data : List Nat) (l : List Section), read_pe_sections data = .ok l → l ≠ []) ∧
    (∀ data : List Nat, data.take 2 ≠ [0x4D, 0x5A] →
      read_pe_sections data = .error .notMZ) ∧
    (∀ (data : List Nat) (e : Nat), data.take 2 = [0x4D, 0x5A] →
      u32le? data 0x3C = some e → bslice data e 4 ≠ [0x50, 0x45, 0, 0] →
      read_pe_sections data = .error .badPESig) ∧
    (∀ data : List Nat, data.take 2 = [0x4D, 0x5A] → data.length < 0x40 →
      read_pe_sections data = .error .shortBuffer) ∧
    (∀ (data : List Nat) (e : Nat), data.take 2 = [0x4D, 0x5A] →
      u32le? data 0x3C = some e → bslice data e 4 = [0x50, 0x45, 0, 0] →
      ¬ data.length < e + 4 + 20 →
      readEntriesGo data
          (e + 4 + 20 + (byteAt data (e + 4 + 16) + 256 * byteAt data (e + 4 + 17)))
          0 (byteAt data (e + 4 + 2) + 256 * byteAt data (e + 4 + 3)) = .ok [] →
      read_pe_sections data = .error .noSections) := by
  refine ⟨?_, ?_, ?_, ?_, ?_⟩
  · intro data l h
    unfold read_pe_sections at h
    split at h
    · exact absurd h (by simp)
    · split at h
      · exact absurd h (by simp)
      · split at h
        · exact absurd h (by simp)
        · split at h
          · exact absurd h (by simp)
          · split at h
            · exact absurd h (by simp)
            · split at h
              · exact absurd h (by simp)
              · rename_i hne
                injection h with h'
                rw [← h']
                exact hne
  · intro data h
    unfold read_pe_sections
    rw [if_pos h]
  · intro data e h1 h2 h3
    unfold read_pe_sections
    rw [if_neg (by simp [h1]), h2]
    dsimp only
    rw [if_pos h3]
  · intro data h1 h2
    unfold read_pe_sections
    rw [if_neg (by simp [h1])]
    have hu : u32le? data 0x3C = none := by
      rw [u32le?, if_neg (by omega)]
    rw [hu]
  · intro data e h1 h2 h3 h4 h5
    unfold read_pe_sections
    rw [if_neg (by simp [h1]), h2]
    dsimp only
    rw [if_neg (by simp [h3]), if_neg h4, h5]
    rfl

/-- A two-byte buffer without the DOS signature. -/
def noMZBuf : List Nat := [0, 0]

/-- An MZ buffer whose extension pointer leads to a bad extended-header
signature. -/
def badSigBuf : List Nat := [0x4D, 0x5A] ++ zeros 0x3A ++ [0, 0, 0, 0]

/-- The `shortBuf` image with the single section's raw size zeroed, so the
parse succeeds structurally but yields zero usable sections. -/
def noSecBuf : List Nat :=
  [0x4D, 0x5A] ++ zeros 0x3A ++ [0x40, 0, 0, 0] ++ [0x50, 0x45, 0, 0] ++
  [0, 0] ++ [1, 0] ++ zeros 12 ++ [0, 0] ++ [0, 0] ++
  [0x2E, 0x64, 0x61, 0x74, 0x61, 0, 0, 0] ++ zeros 8 ++ [0, 0, 0, 0] ++ [0x60, 0, 0, 0]

/-- C6 witness: each failure branch exercised on a concrete buffer, and the
non-empty guarantee applied to the successfully parsed `shortBuf`. -/
theorem c6_witness :
    ([⟨".data", 0x60, 0x70⟩] : List Section) ≠ [] ∧
    read_pe_sections noMZBuf = .error .notMZ ∧
    read_pe_sections badSigBuf = .error .badPESig ∧
    read_pe_sections [0x4D, 0x5A] = .error .shortBuffer ∧
    read_pe_sections noSecBuf = .error .noSections :=
  ⟨c6_theorem.1 shortBuf _ (by decide),
   c6_theorem.2.1 noMZBuf (by decide),
   c6_theorem.2.2.1 badSigBuf 0 (by decide) (by decide) (by decide),
   c6_theorem.2.2.2.1 [0x4D, 0x5A] (by decide) (by decide),
   c6_theorem.2.2.2.2 noSecBuf 0x40 (by decide) (by decide) (by decide) (by decide) (by decide)⟩

/-! ## C5: layout conversion -/

theorem setSlice_eq (out src : List Nat) (a b : Nat)
    (ha : a ≤ out.length) (hb : b ≤ out.length) :
    setSlice out a b src = out.take a ++ src ++ out.drop b := by
  rw [setSlice, min_eq_left ha, min_eq_left hb]

theorem setSlice_length {out src : List Nat} {a b : Nat}
    (hab : a ≤ b) (hb : b ≤ out.length) (hs : src.length = b - a) :
    (setSlice out a b src).length = out.length := by
  rw [setSlice_eq out src a b (le_trans hab hb) hb]
  simp only [List.length_append, List.length_take, List.length_drop]
  omega

theorem setSlice_read {out src : List Nat} {a b : Nat}
    (hab : a ≤ b) (hb : b ≤ out.length) (hs : src.length = b - a) :
    bslice (setSlice out a b src) a (b - a) = src := by
  rw [bslice, setSlice_eq out src a b (le_trans hab hb) hb]
  rw [List.append_assoc, List.drop_left' (by simp [List.length_take]; omega)]
  exact List.take_left' hs

theorem setSlice_before {out src : List Nat} {a b c m : Nat}
    (hab : a ≤ b) (hb : b ≤ out.length) (hcm : c + m ≤ a) :
    bslice (setSlice out a b src) c m = bslice out c m := by
  rw [bslice, bslice, setSlice_eq out src a b (le_trans hab hb) hb]
  rw [List.append_assoc,
    List.drop_append_of_le_length (by simp [List.length_take]; omega),
    List.take_append_of_le_length (by simp [List.length_take, List.length_drop]; omega),
    List.drop_take]
  rw [List.take_take, min_eq_left (by omega)]

theorem setSlice_after {out src : List Nat} {a b c m : Nat}
    (hab : a ≤ b) (hb : b ≤ out.length) (hs : src.length = b - a) (hbc : b ≤ c) :
    bslice (setSlice out a b src) c m = bslice out c m := by
  have hplen : (out.take a ++ src).length = b := by
    simp only [List.length_append, List.length_take]
    omega
  have h1 := @List.drop_append Nat (out.take a ++ src) (out.drop b) (c - b)
  rw [hplen, show b + (c - b) = c from by omega, List.drop_drop,
    show b + (c - b) = c from by omega] at h1
  rw [bslice, bslice, setSlice_eq out src a b (le_trans hab hb) hb, h1]

theorem outSizeOf_init : ∀ (secs : List RawSec) (soh : Nat), soh ≤ outSizeOf soh secs := by
  intro secs
  induction secs with
  | nil => intro soh; exact le_refl _
  | cons x xs ih =>
      intro soh
      exact le_trans (le_max_left _ _) (ih (max soh (x.rptr + x.rsize)))

theorem outSizeOf_mem : ∀ (secs : List RawSec) (soh : Nat) (s : RawSec), s ∈ secs →
    s.rptr + s.rsize ≤ outSizeOf soh secs := by
  intro secs
  induction secs with
  | nil => intro soh s h; simp at h
  | cons x xs ih =>
      intro soh s h
      rcases List.mem_cons.mp h with h1 | h2
      · subst h1
        exact le_trans (le_max_right _ _) (outSizeOf_init xs _)
      · exact ih _ s h2

/-- Behavior of the section-copy fold: the output keeps its length, regions
untouched by every copied section are preserved, and every copied section's
raw region holds its virtual-source bytes (given in-bounds, pairwise
raw-disjoint sections). -/
theorem copySections_spec (img : List Nat) :
    ∀ (secs : List RawSec) (out : List Nat),
    (∀ s ∈ secs, s.rsize ≠ 0 → s.rptr + s.rsize ≤ out.length) →
    (∀ s ∈ secs, s.rsize ≠ 0 → s.vaddr + s.rsize ≤ img.length) →
    List.Pairwise (fun s t => s.rsize ≠ 0 → t.rsize ≠ 0 →
      s.rptr + s.rsize ≤ t.rptr ∨ t.rptr + t.rsize ≤ s.rptr) secs →
    (copySections img secs out).length = out.length ∧
    (∀ c m, (∀ s ∈ secs, s.rsize ≠ 0 → c + m ≤ s.rptr ∨ s.rptr + s.rsize ≤ c) →
      bslice (copySections img secs out) c m = bslice out c m) ∧
    (∀ s ∈ secs, s.rsize ≠ 0 →
      bslice (copySections img secs out) s.rptr s.rsize = bslice img s.vaddr s.rsize) := by
  intro secs
  induction secs with
  | nil =>
      intro out _ _ _
      exact ⟨rfl, fun c m _ => rfl, by simp⟩
  | cons s0 rest ih =>
      intro out hb hsrc hpw
      obtain ⟨hpw0, hpwrest⟩ := List.pairwise_cons.mp hpw
      have hstep : copySections img (s0 :: rest) out =
          copySections img rest (if s0.rsize = 0 then out
            else setSlice out s0.rptr (s0.rptr + s0.rsize) (bslice img s0.vaddr s0.rsize)) := by
        rw [copySections, List.foldl_cons]
        rfl
      by_cases hz : s0.rsize = 0
      · rw [hstep, if_pos hz]
        obtain ⟨ihlen, ihpre, ihread⟩ := ih out
          (fun s hs => hb s (List.mem_cons_of_mem _ hs))
          (fun s hs => hsrc s (List.mem_cons_of_mem _ hs)) hpwrest
        refine ⟨ihlen, fun c m hd => ihpre c m (fun s hs => hd s (List.mem_cons_of_mem _ hs)), ?_⟩
        intro s hs hsz
        rcases List.mem_cons.mp hs with h1 | h2
        · exact absurd (h1 ▸ hz) hsz
        · exact ihread s h2 hsz
      · have hb0 : s0.rptr + s0.rsize ≤ out.length := hb s0 (List.mem_cons_self _ _) hz
        have hsrc0 : s0.vaddr + s0.rsize ≤ img.length := hsrc s0 (List.mem_cons_self _ _) hz
        have hslen : (bslice img s0.vaddr s0.rsize).length =
            s0.rptr + s0.rsize - s0.rptr := by
          rw [bslice_length hsrc0]; omega
        have hab : s0.rptr ≤ s0.rptr + s0.rsize := Nat.le_add_right _ _
        have hlen1 : (setSlice out s0.rptr (s0.rptr + s0.rsize)
            (bslice img s0.vaddr s0.rsize)).length = out.length :=
          setSlice_length hab hb0 hslen
        rw [hstep, if_neg hz]
        obtain ⟨ihlen, ihpre, ihread⟩ := ih
          (setSlice out s0.rptr (s0.rptr + s0.rsize) (bslice img s0.vaddr s0.rsize))
          (fun s hs hsz => hlen1 ▸ hb s (List.mem_cons_of_mem _ hs) hsz)
          (fun s hs => hsrc s (List.mem_cons_of_mem _ hs)) hpwrest
        refine ⟨ihlen.trans hlen1, ?_, ?_⟩
        · intro c m hd
          rw [ihpre c m (fun s hs => hd s (List.mem_cons_of_mem _ hs))]
          rcases hd s0 (List.mem_cons_self _ _) hz with h1 | h1
          · exact setSlice_before hab hb0 h1
          · exact setSlice_after hab hb0 hslen h1
        · intro s hs hsz
          rcases List.mem_cons.mp hs with h1 | h2
          · subst h1
            have hpre : ∀ t ∈ rest, t.rsize ≠ 0 →
                s.rptr + s.rsize ≤ t.rptr ∨ t.rptr + t.rsize ≤ s.rptr :=
              fun t ht htz => hpw0 t ht hsz htz
            rw [ihpre s.rptr s.rsize (fun t ht htz => (hpre t ht htz).imp id id)]
            have := setSlice_read hab hb0 hslen
            rw [show s.rptr + s.rsize - s.rptr = s.rsize by omega] at this
            exact this
          · exact ihread s h2 hsz

/-- C5: for a virtual-layout image with in-bounds, header-respecting and
pairwise raw-disjoint parsed sections, the layout conversion produces an
output of length `max(sizeOfHeaders, max over sections of rptr + rsize)`,
whose first `sizeOfHeaders` bytes equal the input's, and in which every
nonzero-raw-size section's raw range holds exactly the bytes of its virtual
range. -/
theorem c5_theorem (img : List Nat) (soh : Nat) (secs : List RawSec)
    (hsoh : soh ≤ img.length)
    (hhead : ∀ s ∈ secs, s.rsize ≠ 0 → soh ≤ s.rptr)
    (hsrc : ∀ s ∈ secs, s.rsize ≠ 0 → s.vaddr + s.rsize ≤ img.length)
    (hdisj : List.Pairwise (fun s t => s.rsize ≠ 0 → t.rsize ≠ 0 →
      s.rptr + s.rsize ≤ t.rptr ∨ t.rptr + t.rsize ≤ s.rptr) secs) :
    (rebuildFromSections img soh secs).length = outSizeOf soh secs ∧
    (rebuildFromSections img soh secs).take soh = img.take soh ∧
    (∀ s ∈ secs, s.rsize ≠ 0 →
      bslice (rebuildFromSections img soh secs) s.rptr s.rsize =
        bslice img s.vaddr s.rsize) := by
  have hsohL : soh ≤ outSizeOf soh secs := outSizeOf_init secs soh
  have hrep : (List.replicate (outSizeOf soh secs) (0 : Nat)).length = outSizeOf soh secs :=
    List.length_replicate _ _
  have hsohR : soh ≤ (List.replicate (outSizeOf soh secs) (0 : Nat)).length := by
    rw [hrep]; exact hsohL
  have hs0 : (bslice img 0 soh).length = soh - 0 := by
    rw [bslice_length (by omega)]; omega
  have h0len : (setSlice (List.replicate (outSizeOf soh secs) 0) 0 soh
      (bslice img 0 soh)).length = outSizeOf soh secs := by
    rw [setSlice_length (Nat.zero_le _) hsohR hs0, hrep]
  obtain ⟨clen, cpre, cread⟩ := copySections_spec img secs
    (setSlice (List.replicate (outSizeOf soh secs) 0) 0 soh (bslice img 0 soh))
    (fun s hs hsz => by rw [h0len]; exact outSizeOf_mem secs soh s hs) hsrc hdisj
  have hreb : rebuildFromSections img soh secs =
      copySections img secs
        (setSlice (List.replicate (outSizeOf soh secs) 0) 0 soh (bslice img 0 soh)) := rfl
  refine ⟨by rw [hreb, clen, h0len], ?_, by rw [hreb]; exact cread⟩
  have htk : (rebuildFromSections img soh secs).take soh =
      bslice (rebuildFromSections img soh secs) 0 soh := by
    simp [bslice]
  rw [htk, hreb, cpre 0 soh (fun s hs hsz => Or.inl (by simpa using hhead s hs hsz))]
  have hread := @setSlice_read (List.replicate (outSizeOf soh secs) 0)
    (bslice img 0 soh) 0 soh (Nat.zero_le soh) hsohR hs0
  simp only [Nat.sub_zero] at hread
  rw [hread]
  simp [bslice]

/-- The virtual-layout test image of the spec's layout-conversion example. -/
def imgC5 : List Nat := List.replicate 0x1200 7

/-- The single section of the layout-conversion example:
`{virtualStart = 0x1000, rawStart = 0x400, rawSize = 0x200}`. -/
def secC5 : RawSec := ⟨".data", 0x1000, 0x400, 0x200, 0x200⟩

/-- C5 witness: the spec's concrete example, with the output size evaluating
to `max(0x400, 0x600) = 0x600`. -/
theorem c5_witness :
    outSizeOf 0x400 [secC5] = 0x600 ∧
    (rebuildFromSections imgC5 0x400 [secC5]).length = outSizeOf 0x400 [secC5] ∧
    (rebuildFromSections imgC5 0x400 [secC5]).take 0x400 = imgC5.take 0x400 ∧
    (∀ s ∈ [secC5], s.rsize ≠ 0 →
      bslice (rebuildFromSections imgC5 0x400 [secC5]) s.rptr s.rsize =
        bslice imgC5 s.vaddr s.rsize) := by
  have h := c5_theorem imgC5 0x400 [secC5]
    (by simp only [imgC5, List.length_replicate]; norm_num)
    (by intro s hs _; rw [List.mem_singleton] at hs; subst hs; decide)
    (by
      intro s hs _
      rw [List.mem_singleton] at hs
      subst hs
      simp only [imgC5, List.length_replicate]
      decide)
    (by simp)
  exact ⟨by decide, h.1, h.2.1, h.2.2⟩
